import Mathlib

/-!
Shallow embedding of the 15-puzzle greedy best-first solver (15Puzzle.py).

Boards are flat lists of 16 natural numbers in row-major order, 0 marking the
blank cell.  Python integers become `Int` where subtraction matters (the
Manhattan heuristic, parent links using -1 as "no parent", the sentinel -1 of
`find_board_index`), and `Nat` elsewhere.  The `while` loop of the search is
modelled with an explicit fuel argument initialised to the expansion limit:
the loop counter increases by exactly one per iteration and the loop guard
requires it to stay below the limit, so a fuel of `maximum_number_of_expansions`
reproduces the loop exactly (the fuel-exhausted branch returns the same value
as the guard-failure branch).
-/

def GOAL_BOARD : List Nat :=
  [1, 2, 3, 4,
   5, 6, 7, 8,
   9, 10, 11, 12,
   13, 14, 15, 0]

/-- Contribution of a single position to the Manhattan total: the loop body of
`compute_manhattan_total`, with the `continue` for the blank rendered as 0. -/
def manhattan_contribution (board : List Nat) (position : Nat) : Int :=
  let tile_value := board.getD position 0
  if tile_value = 0 then 0
  else
    let current_row : Int := (position : Int) / 4
    let current_column : Int := (position : Int) % 4
    let goal_position : Int := (tile_value : Int) - 1
    let goal_row : Int := goal_position / 4
    let goal_column : Int := goal_position % 4
    ((current_row - goal_row).natAbs : Int) + ((current_column - goal_column).natAbs : Int)

/-- Total Manhattan distance of a board (`compute_manhattan_total`). -/
def compute_manhattan_total (board : List Nat) : Int :=
  (List.range 16).foldl
    (fun total_distance position => total_distance + manhattan_contribution board position) 0

/-- The in-place swap of the loop body of `generate_all_neighbor_boards`:
copy the board, then exchange the entries at the two given positions. -/
def swap_with_empty (board : List Nat) (index_of_empty new_empty_position : Nat) : List Nat :=
  let temporary := board.getD index_of_empty 0
  let board1 := board.set index_of_empty (board.getD new_empty_position 0)
  board1.set new_empty_position temporary

/-- The four guarded shift candidates, in source order -4, 4, -1, 1. -/
def possible_shifts_for (empty_row empty_column : Nat) : List Int :=
  (if empty_row > 0 then [(-4 : Int)] else []) ++
  (if empty_row < 3 then [(4 : Int)] else []) ++
  (if empty_column > 0 then [(-1 : Int)] else []) ++
  (if empty_column < 3 then [(1 : Int)] else [])

/-- All boards reachable by one slide (`generate_all_neighbor_boards`). -/
def generate_all_neighbor_boards (board : List Nat) : List (List Nat) :=
  let index_of_empty := board.indexOf 0
  let empty_row := index_of_empty / 4
  let empty_column := index_of_empty % 4
  (possible_shifts_for empty_row empty_column).map fun shift =>
    let new_empty_position := ((index_of_empty : Int) + shift).toNat
    swap_with_empty board index_of_empty new_empty_position

/-- Element-wise comparison over the 16 positions (`boards_are_equal`). -/
def boards_are_equal (board_a board_b : List Nat) : Bool :=
  (List.range 16).all fun position => board_a.getD position 0 == board_b.getD position 0

/-- The indexed scan of `find_board_index`, carrying the current index. -/
def find_board_index_from : List (List Nat) → List Nat → Nat → Int
  | [], _, _ => -1
  | candidate :: rest, board, index =>
    if boards_are_equal candidate board then (index : Int)
    else find_board_index_from rest board (index + 1)

/-- Index of a board in a list of boards, or -1 (`find_board_index`). -/
def find_board_index (list_of_all_boards : List (List Nat)) (board : List Nat) : Int :=
  find_board_index_from list_of_all_boards board 0

/-- The frontier scan of the selection step: starting from the accumulated
(best position, best index, best score), fold over the remaining frontier
entries, keeping the strictly smaller score (first-found wins ties). -/
def select_lowest_score (boards : List (List Nat)) :
    List Nat → Nat → Nat × Nat × Int → Nat × Nat × Int
  | [], _, best => best
  | current_index :: rest, position_in_frontier, (best_position, best_index, best_score) =>
    let current_score := compute_manhattan_total (boards.getD current_index [])
    if current_score < best_score then
      select_lowest_score boards rest (position_in_frontier + 1)
        (position_in_frontier, current_index, current_score)
    else
      select_lowest_score boards rest (position_in_frontier + 1)
        (best_position, best_index, best_score)

/-- The backward walk over parent links (`while index != -1`), fuelled; the
search calls it with fuel `parent_index.length`, which suffices because every
parent link points strictly below its child. -/
def walk_parent_links (parent_index : List Int) : Int → Nat → List Nat
  | _, 0 => []
  | index, fuel + 1 =>
    if index = -1 then []
    else index.toNat :: walk_parent_links parent_index (parent_index.getD index.toNat (-1)) fuel

/-- The neighbor-recording loop of the search: each neighbor absent from the
registry is appended to the registry, given the expanded board as parent, and
put on the frontier (its new index is the registry length before the append). -/
def record_new_neighbors (best_board_index : Nat) :
    List (List Nat) → List Int → List Nat → List (List Nat) →
    List (List Nat) × List Int × List Nat
  | boards, parents, frontier, [] => (boards, parents, frontier)
  | boards, parents, frontier, neighbor :: remaining =>
    if find_board_index boards neighbor = -1 then
      record_new_neighbors best_board_index (boards ++ [neighbor])
        (parents ++ [(best_board_index : Int)]) (frontier ++ [boards.length]) remaining
    else
      record_new_neighbors best_board_index boards parents frontier remaining

/-- The `while` loop of `greedy_best_first_search`, with fuel. -/
def gbfs_loop (maximum_number_of_expansions : Nat) :
    Nat → List (List Nat) → List Int → List Nat → Nat →
    Option (List (List Nat)) × Nat
  | 0, _, _, _, number_of_expanded_boards => (none, number_of_expanded_boards)
  | fuel + 1, list_of_all_boards, parent_index, frontier_indices, number_of_expanded_boards =>
    match frontier_indices with
    | [] => (none, number_of_expanded_boards)
    | first_frontier_index :: rest_of_frontier =>
      if number_of_expanded_boards < maximum_number_of_expansions then
        let best := select_lowest_score list_of_all_boards rest_of_frontier 1
          (0, first_frontier_index,
            compute_manhattan_total (list_of_all_boards.getD first_frontier_index []))
        let best_board_index := best.2.1
        let frontier_after_removal :=
          (first_frontier_index :: rest_of_frontier).eraseIdx best.1
        let current_board := list_of_all_boards.getD best_board_index []
        if boards_are_equal current_board GOAL_BOARD then
          let path_indices :=
            walk_parent_links parent_index (best_board_index : Int) parent_index.length
          (some (path_indices.reverse.map fun index => list_of_all_boards.getD index []),
            number_of_expanded_boards + 1)
        else
          let expanded := record_new_neighbors best_board_index list_of_all_boards parent_index
            frontier_after_removal (generate_all_neighbor_boards current_board)
          gbfs_loop maximum_number_of_expansions fuel expanded.1 expanded.2.1 expanded.2.2
            (number_of_expanded_boards + 1)
      else (none, number_of_expanded_boards)

/-- Greedy best-first search (`greedy_best_first_search`): registry, parent
table and frontier all start with just the starting board. -/
def greedy_best_first_search (starting_board : List Nat)
    (maximum_number_of_expansions : Nat := 100000) : Option (List (List Nat)) × Nat :=
  gbfs_loop maximum_number_of_expansions maximum_number_of_expansions
    [starting_board] [-1] [0] 0

/-- A valid board is a permutation of 0..15, as validated by the input reader. -/
@[reducible] def ValidBoard (board : List Nat) : Prop := board.Perm (List.range 16)

/-! ### Basic facts about valid boards -/

theorem ValidBoard.len {b : List Nat} (h : ValidBoard b) : b.length = 16 := by
  simpa using h.length_eq

theorem ValidBoard.mem_lt {b : List Nat} (h : ValidBoard b) {x : Nat} (hx : x ∈ b) : x < 16 := by
  simpa [List.mem_range] using h.mem_iff.mp hx

theorem ValidBoard.nodup {b : List Nat} (h : ValidBoard b) : b.Nodup :=
  h.nodup_iff.mpr (List.nodup_range 16)

theorem ValidBoard.getD_lt {b : List Nat} (h : ValidBoard b) (p : Nat) (hp : p < 16) :
    b.getD p 0 < 16 := by
  have hp' : p < b.length := by rw [h.len]; exact hp
  rw [List.getD_eq_getElem _ _ hp']
  exact h.mem_lt (b.getElem_mem hp')

theorem valid_goal_board : ValidBoard GOAL_BOARD := by decide

theorem valid_getD_eq_iff {b : List Nat} (h : ValidBoard b) {i j : Nat}
    (hi : i < 16) (hj : j < 16) (he : b.getD i 0 = b.getD j 0) : i = j := by
  have hi' : i < b.length := by rw [h.len]; exact hi
  have hj' : j < b.length := by rw [h.len]; exact hj
  rw [List.getD_eq_getElem _ _ hi', List.getD_eq_getElem _ _ hj'] at he
  exact (List.Nodup.getElem_inj_iff h.nodup).mp he

theorem getD_out_of_range {α : Type} [Inhabited α] {l : List α} {i : Nat}
    (h : ¬ i < l.length) (d : α) : l.getD i d = d := by
  rw [List.getD_eq_getD_get?, List.get?_eq_none.mpr (by omega)]
  rfl

/-! ### boards_are_equal agrees with equality on length-16 boards -/

theorem boards_are_equal_iff {a b : List Nat} (ha : a.length = 16) (hb : b.length = 16) :
    boards_are_equal a b = true ↔ a = b := by
  unfold boards_are_equal
  rw [List.all_eq_true]
  constructor
  · intro h
    apply List.ext_getElem (by omega)
    intro i h1 h2
    have hmem := h i (List.mem_range.mpr (by omega))
    rw [beq_iff_eq, List.getD_eq_getElem _ _ h1, List.getD_eq_getElem _ _ h2] at hmem
    exact hmem
  · rintro rfl i _
    simp

theorem boards_are_equal_of_eq (a : List Nat) : boards_are_equal a a = true := by
  unfold boards_are_equal
  rw [List.all_eq_true]
  intro i _
  simp

/-! ### Manhattan heuristic: nonnegative, zero exactly at the goal -/

theorem foldl_add_contribution (b : List Nat) :
    ∀ (l : List Nat) (a : Int),
      l.foldl (fun t p => t + manhattan_contribution b p) a =
        a + (l.map (manhattan_contribution b)).sum := by
  intro l
  induction l with
  | nil => intro a; simp
  | cons x t ih =>
    intro a
    simp only [List.foldl_cons, List.map_cons, List.sum_cons, ih]
    ring

theorem manhattan_eq_sum (b : List Nat) :
    compute_manhattan_total b = ((List.range 16).map (manhattan_contribution b)).sum := by
  unfold compute_manhattan_total
  rw [foldl_add_contribution]
  ring

theorem manhattan_contribution_nonneg (b : List Nat) (p : Nat) :
    0 ≤ manhattan_contribution b p := by
  unfold manhattan_contribution
  dsimp only
  split
  · exact le_refl 0
  · positivity

theorem manhattan_nonneg (b : List Nat) : 0 ≤ compute_manhattan_total b := by
  rw [manhattan_eq_sum]
  apply List.sum_nonneg
  intro x hx
  obtain ⟨p, _, rfl⟩ := List.mem_map.mp hx
  exact manhattan_contribution_nonneg b p

theorem int_sum_zero_all :
    ∀ (l : List Int), (∀ x ∈ l, 0 ≤ x) → l.sum = 0 → ∀ x ∈ l, x = 0 := by
  intro l
  induction l with
  | nil => intro _ _ x hx; simp at hx
  | cons a t ih =>
    intro h0 hs x hx
    have hts : 0 ≤ t.sum := List.sum_nonneg (fun y hy => h0 y (List.mem_cons_of_mem a hy))
    have ha : 0 ≤ a := h0 a (List.mem_cons_self a t)
    have has : a + t.sum = 0 := by simpa using hs
    rcases List.mem_cons.mp hx with rfl | hxt
    · omega
    · exact ih (fun y hy => h0 y (List.mem_cons_of_mem a hy)) (by omega) x hxt

theorem contribution_zero_char :
    ∀ p : Nat, p < 16 → ∀ v : Nat, v < 16 →
      ((if v = 0 then (0 : Int)
        else ((((p : Int) / 4 - ((v : Int) - 1) / 4).natAbs : Int) +
          (((p : Int) % 4 - ((v : Int) - 1) % 4).natAbs : Int))) = 0 ↔
        (v = 0 ∨ v = p + 1)) := by decide

theorem manhattan_contribution_eq_zero {b : List Nat} (h : ValidBoard b) (p : Nat)
    (hp : p < 16) :
    manhattan_contribution b p = 0 ↔ (b.getD p 0 = 0 ∨ b.getD p 0 = p + 1) := by
  have hv : b.getD p 0 < 16 := h.getD_lt p hp
  have := contribution_zero_char p hp (b.getD p 0) hv
  unfold manhattan_contribution
  exact this

theorem goal_board_entries :
    ∀ i : Nat, i < 16 → GOAL_BOARD.getD i 0 = if i = 15 then 0 else i + 1 := by decide

theorem manhattan_zero_iff {b : List Nat} (h : ValidBoard b) :
    compute_manhattan_total b = 0 ↔ b = GOAL_BOARD := by
  constructor
  · intro hz
    rw [manhattan_eq_sum] at hz
    have hall : ∀ p : Nat, p < 16 → manhattan_contribution b p = 0 := by
      intro p hp
      exact int_sum_zero_all _
        (by
          intro x hx
          obtain ⟨q, _, rfl⟩ := List.mem_map.mp hx
          exact manhattan_contribution_nonneg b q) hz _
        (List.mem_map.mpr ⟨p, List.mem_range.mpr hp, rfl⟩)
    have hchar : ∀ p : Nat, p < 16 → b.getD p 0 = 0 ∨ b.getD p 0 = p + 1 := by
      intro p hp
      exact (manhattan_contribution_eq_zero h p hp).mp (hall p hp)
    -- the blank must sit at position 15
    have h0 : 0 ∈ b := h.mem_iff.mpr (by simp)
    have hidx : b.indexOf 0 < b.length := List.indexOf_lt_length.mpr h0
    have hidx16 : b.indexOf 0 < 16 := by rw [h.len] at hidx; exact hidx
    have hblank : b.getD (b.indexOf 0) 0 = 0 := by
      rw [List.getD_eq_getElem _ _ hidx]
      exact List.getElem_indexOf hidx
    have h15 : b.indexOf 0 = 15 := by
      by_contra hne
      rcases hchar 15 (by omega) with h15z | h15v
      · exact hne (valid_getD_eq_iff h hidx16 (by omega) (by rw [hblank, h15z]))
      · have : b.getD 15 0 < 16 := h.getD_lt 15 (by omega)
        omega
    rw [h15] at hblank
    apply List.ext_getElem (by rw [h.len]; decide)
    intro i h1 h2
    have hi16 : i < 16 := by rw [h.len] at h1; exact h1
    have hg : GOAL_BOARD.getD i 0 = if i = 15 then 0 else i + 1 := goal_board_entries i hi16
    rw [List.getD_eq_getElem _ _ h2] at hg
    rw [← List.getD_eq_getElem b 0 h1, hg]
    by_cases hie : i = 15
    · subst hie
      rw [hblank]
      simp
    · rcases hchar i hi16 with hz | hv
      · exact absurd (valid_getD_eq_iff h hi16 (by omega) (by rw [hz, hblank])) hie
      · rw [hv]
        simp [hie]
  · rintro rfl
    decide

/-! ### The slide swap is a permutation, and neighbor boards stay valid -/

theorem swap_with_empty_length (b : List Nat) (i j : Nat) :
    (swap_with_empty b i j).length = b.length := by
  simp [swap_with_empty]

theorem cons_set_perm :
    ∀ (t : List Nat) (j : Nat) (a : Nat), j < t.length →
      List.Perm (t.getD j 0 :: t.set j a) (a :: t) := by
  intro t
  induction t with
  | nil => intro j a hj; simp at hj
  | cons b s ih =>
    intro j a hj
    cases j with
    | zero =>
      simpa using List.Perm.swap a b s
    | succ k =>
      have hk : k < s.length := by simpa using hj
      have step1 : List.Perm (s.getD k 0 :: b :: s.set k a) (b :: s.getD k 0 :: s.set k a) :=
        List.Perm.swap b (s.getD k 0) (s.set k a)
      have step2 : List.Perm (b :: s.getD k 0 :: s.set k a) (b :: a :: s) :=
        List.Perm.cons b (ih k a hk)
      have step3 : List.Perm (b :: a :: s) (a :: b :: s) := List.Perm.swap a b s
      simpa using (step1.trans step2).trans step3

theorem set_set_perm :
    ∀ (b : List Nat) (i j : Nat), i < b.length → j < b.length → i ≠ j →
      List.Perm ((b.set i (b.getD j 0)).set j (b.getD i 0)) b := by
  intro b
  induction b with
  | nil => intro i j hi _ _; simp at hi
  | cons a t ih =>
    intro i j hi hj hne
    cases i with
    | zero =>
      cases j with
      | zero => exact absurd rfl hne
      | succ k =>
        have hk : k < t.length := by simpa using hj
        simpa using cons_set_perm t k a hk
    | succ m =>
      cases j with
      | zero =>
        have hm : m < t.length := by simpa using hi
        simpa using cons_set_perm t m a hm
      | succ k =>
        have hm : m < t.length := by simpa using hi
        have hk : k < t.length := by simpa using hj
        have hkm : m ≠ k := by omega
        simpa using List.Perm.cons a (ih m k hm hk hkm)

theorem swap_with_empty_perm {b : List Nat} {i j : Nat} (hi : i < b.length)
    (hj : j < b.length) (hne : i ≠ j) : List.Perm (swap_with_empty b i j) b := by
  unfold swap_with_empty
  exact set_set_perm b i j hi hj hne

/-- Everything the four guard conditions give us about a legal shift from a
blank position `e`: the shifted position is in range, differs from `e`, and the
opposite shift is legal from there and leads back. -/
theorem shifts_spec :
    ∀ e : Nat, e < 16 → ∀ s ∈ possible_shifts_for (e / 4) (e % 4),
      0 ≤ (e : Int) + s ∧ ((e : Int) + s).toNat < 16 ∧ ((e : Int) + s).toNat ≠ e ∧
        (-s) ∈ possible_shifts_for ((((e : Int) + s).toNat) / 4) ((((e : Int) + s).toNat) % 4) ∧
        ((((e : Int) + s).toNat : Int) + (-s)).toNat = e := by decide

theorem shifts_length :
    ∀ e : Nat, e < 16 →
      2 ≤ (possible_shifts_for (e / 4) (e % 4)).length ∧
        (possible_shifts_for (e / 4) (e % 4)).length ≤ 4 := by decide

theorem valid_indexOf_lt {b : List Nat} (h : ValidBoard b) : b.indexOf 0 < 16 := by
  have h0 : 0 ∈ b := h.mem_iff.mpr (by simp)
  have := List.indexOf_lt_length.mpr h0
  rw [h.len] at this
  exact this

theorem valid_getD_indexOf {b : List Nat} (h : ValidBoard b) : b.getD (b.indexOf 0) 0 = 0 := by
  have h0 : 0 ∈ b := h.mem_iff.mpr (by simp)
  have hlt := List.indexOf_lt_length.mpr h0
  rw [List.getD_eq_getElem _ _ hlt]
  exact List.getElem_indexOf hlt

theorem neighbors_length_eq {b : List Nat} :
    (generate_all_neighbor_boards b).length =
      (possible_shifts_for (b.indexOf 0 / 4) (b.indexOf 0 % 4)).length := by
  simp [generate_all_neighbor_boards]

theorem mem_neighbors_iff {b n : List Nat} :
    n ∈ generate_all_neighbor_boards b ↔
      ∃ s ∈ possible_shifts_for (b.indexOf 0 / 4) (b.indexOf 0 % 4),
        n = swap_with_empty b (b.indexOf 0) (((b.indexOf 0 : Int) + s).toNat) := by
  unfold generate_all_neighbor_boards
  rw [List.mem_map]
  constructor
  · rintro ⟨s, hs, rfl⟩
    exact ⟨s, hs, rfl⟩
  · rintro ⟨s, hs, rfl⟩
    exact ⟨s, hs, rfl⟩

theorem neighbor_valid {b n : List Nat} (h : ValidBoard b)
    (hn : n ∈ generate_all_neighbor_boards b) : ValidBoard n := by
  obtain ⟨s, hs, rfl⟩ := mem_neighbors_iff.mp hn
  have he : b.indexOf 0 < 16 := valid_indexOf_lt h
  obtain ⟨_, hj, hne, _, _⟩ := shifts_spec (b.indexOf 0) he s hs
  exact (swap_with_empty_perm (by rw [h.len]; exact he) (by rw [h.len]; exact hj)
    (Ne.symm hne)).trans h

/-! ### Reading entries of a swapped board -/

theorem swap_getD_fst {b : List Nat} {i j : Nat} (hi : i < b.length) (_hj : j < b.length)
    (hne : i ≠ j) : (swap_with_empty b i j).getD i 0 = b.getD j 0 := by
  unfold swap_with_empty
  have hi' : i < ((b.set i (b.getD j 0)).set j (b.getD i 0)).length := by simpa using hi
  rw [List.getD_eq_getElem _ _ hi', List.getElem_set_ne (by omega) (by simpa using hi),
    List.getElem_set_self (by simpa using hi)]

theorem swap_getD_snd {b : List Nat} {i j : Nat} (_hi : i < b.length) (hj : j < b.length) :
    (swap_with_empty b i j).getD j 0 = b.getD i 0 := by
  unfold swap_with_empty
  have hj' : j < ((b.set i (b.getD j 0)).set j (b.getD i 0)).length := by simpa using hj
  rw [List.getD_eq_getElem _ _ hj', List.getElem_set_self (by simpa using hj)]

theorem swap_getD_other {b : List Nat} {i j k : Nat} (hk : k < b.length)
    (hki : k ≠ i) (hkj : k ≠ j) : (swap_with_empty b i j).getD k 0 = b.getD k 0 := by
  unfold swap_with_empty
  have hk' : k < ((b.set i (b.getD j 0)).set j (b.getD i 0)).length := by simpa using hk
  rw [List.getD_eq_getElem _ _ hk', List.getElem_set_ne (by omega) (by simpa using hk),
    List.getElem_set_ne (by omega) (by simpa using hk), List.getD_eq_getElem _ _ hk]

theorem eq_of_getD_eq {a b : List Nat} (ha : a.length = 16) (hb : b.length = 16)
    (h : ∀ p : Nat, p < 16 → a.getD p 0 = b.getD p 0) : a = b := by
  apply List.ext_getElem (by omega)
  intro i h1 h2
  have := h i (by omega)
  rwa [List.getD_eq_getElem _ _ h1, List.getD_eq_getElem _ _ h2] at this

/-- The inverse slide: the original board is a neighbor of each of its
neighbors. -/
theorem neighbor_symm {b n : List Nat} (h : ValidBoard b)
    (hn : n ∈ generate_all_neighbor_boards b) : b ∈ generate_all_neighbor_boards n := by
  obtain ⟨s, hs, rfl⟩ := mem_neighbors_iff.mp hn
  set e := b.indexOf 0 with hedef
  have he : e < 16 := valid_indexOf_lt h
  obtain ⟨hpos, hj16, hne, hrev, hback⟩ := shifts_spec e he s hs
  set j := ((e : Int) + s).toNat with hjdef
  have hbl : b.length = 16 := h.len
  have hel : e < b.length := by omega
  have hjl : j < b.length := by omega
  have hvn : ValidBoard (swap_with_empty b e j) := neighbor_valid h hn
  -- the blank of the neighbor board sits at position j
  have hblank : (swap_with_empty b e j).getD j 0 = 0 := by
    rw [swap_getD_snd hel hjl]
    exact valid_getD_indexOf h
  have hidxn : (swap_with_empty b e j).indexOf 0 = j := by
    apply valid_getD_eq_iff hvn (valid_indexOf_lt hvn) (by omega)
    rw [valid_getD_indexOf hvn, hblank]
  rw [mem_neighbors_iff]
  refine ⟨-s, ?_, ?_⟩
  · rw [hidxn]
    exact hrev
  · rw [hidxn, hback]
    -- swapping back restores the original board
    have hnl : (swap_with_empty b e j).length = 16 := hvn.len
    refine (eq_of_getD_eq
      (by rw [swap_with_empty_length, swap_with_empty_length]; exact hbl) hbl ?_).symm
    intro p hp
    have hpl : p < b.length := by omega
    have hjn : j < (swap_with_empty b e j).length := by omega
    have hen : e < (swap_with_empty b e j).length := by omega
    have hpn : p < (swap_with_empty b e j).length := by omega
    by_cases hpj : p = j
    · subst hpj
      rw [swap_getD_fst hjn hen (fun hh => hne hh), swap_getD_fst hel hjl (fun hh => hne hh.symm)]
    · by_cases hpe : p = e
      · subst hpe
        rw [swap_getD_snd hjn hen, swap_getD_snd hel hjl]
      · rw [swap_getD_other hpn hpj hpe, swap_getD_other hpl hpe hpj]

/-! ### The registry membership scan -/

theorem find_board_index_from_neg :
    ∀ (l : List (List Nat)) (b : List Nat) (i : Nat),
      find_board_index_from l b i = -1 ↔ ∀ x ∈ l, boards_are_equal x b = false := by
  intro l
  induction l with
  | nil => intro b i; simp [find_board_index_from]
  | cons c rest ih =>
    intro b i
    unfold find_board_index_from
    by_cases hc : boards_are_equal c b = true
    · rw [if_pos hc]
      constructor
      · intro he
        exact absurd he (by omega)
      · intro hall
        rw [hall c (List.mem_cons_self c rest)] at hc
        cases hc
    · rw [if_neg hc]
      rw [ih b (i + 1)]
      constructor
      · intro hall x hx
        rcases List.mem_cons.mp hx with rfl | hxr
        · simpa using hc
        · exact hall x hxr
      · intro hall x hx
        exact hall x (List.mem_cons_of_mem c hx)

theorem find_board_index_neg_iff (l : List (List Nat)) (b : List Nat) :
    find_board_index l b = -1 ↔ ∀ x ∈ l, boards_are_equal x b = false :=
  find_board_index_from_neg l b 0

/-! ### The frontier selection scan returns a frontier member -/

theorem select_lowest_score_mem (boards : List (List Nat)) :
    ∀ (rest : List Nat) (pos : Nat) (best : Nat × Nat × Int),
      (select_lowest_score boards rest pos best).2.1 = best.2.1 ∨
        (select_lowest_score boards rest pos best).2.1 ∈ rest := by
  intro rest
  induction rest with
  | nil => intro pos best; left; rfl
  | cons c t ih =>
    intro pos best
    obtain ⟨bp, bi, bs⟩ := best
    unfold select_lowest_score
    dsimp only
    split
    · rcases ih (pos + 1) (pos, c, compute_manhattan_total (boards.getD c [])) with h | h
      · right
        rw [h]
        exact List.mem_cons_self c t
      · right
        exact List.mem_cons_of_mem c h
    · rcases ih (pos + 1) (bp, bi, bs) with h | h
      · left
        exact h
      · right
        exact List.mem_cons_of_mem c h

/-! ### The parent walk -/

/-- The shape every reachable parent table has: the root points nowhere, and
every later entry points to a strictly earlier one. -/
def ParentsOK (parents : List Int) : Prop :=
  parents.getD 0 (-1) = -1 ∧
    ∀ i : Nat, 0 < i → i < parents.length →
      0 ≤ parents.getD i (-1) ∧ parents.getD i (-1) < (i : Int)

theorem walk_neg_one (parents : List Int) (fuel : Nat) :
    walk_parent_links parents (-1) fuel = [] := by
  cases fuel <;> simp [walk_parent_links]

theorem walk_cons (parents : List Int) (i : Nat) (fuel : Nat) :
    walk_parent_links parents (i : Int) (fuel + 1) =
      i :: walk_parent_links parents (parents.getD i (-1)) fuel := by
  conv_lhs => rw [walk_parent_links]
  rw [if_neg (show ¬ ((i : Int) = -1) by omega), Int.toNat_natCast]

theorem walk_fuel_congr {parents : List Int} (hok : ParentsOK parents) :
    ∀ (f1 : Nat) (idx : Int) (f2 : Nat),
      (idx = -1 ∨ (0 ≤ idx ∧ idx.toNat < parents.length ∧ idx.toNat < f1 ∧ idx.toNat < f2)) →
      walk_parent_links parents idx f1 = walk_parent_links parents idx f2 := by
  intro f1
  induction f1 with
  | zero =>
    intro idx f2 h
    rcases h with rfl | ⟨_, _, hf1, _⟩
    · rw [walk_neg_one, walk_neg_one]
    · omega
  | succ a ih =>
    intro idx f2 h
    rcases h with rfl | ⟨hpos, hlen, hf1, hf2⟩
    · rw [walk_neg_one, walk_neg_one]
    · obtain ⟨b, rfl⟩ : ∃ b, f2 = b + 1 := ⟨f2 - 1, by omega⟩
      have hi : idx = ((idx.toNat : Nat) : Int) := (Int.toNat_of_nonneg hpos).symm
      rw [hi, walk_cons, walk_cons]
      congr 1
      by_cases h0 : idx.toNat = 0
      · rw [h0, hok.1, walk_neg_one, walk_neg_one]
      · obtain ⟨hnext0, hnextlt⟩ := hok.2 idx.toNat (by omega) hlen
        apply ih
        right
        refine ⟨hnext0, by omega, by omega, by omega⟩

theorem walk_append_congr {parents : List Int} (hok : ParentsOK parents) (ext : List Int) :
    ∀ (fuel : Nat) (idx : Int),
      (idx = -1 ∨ (0 ≤ idx ∧ idx.toNat < parents.length)) →
      walk_parent_links (parents ++ ext) idx fuel = walk_parent_links parents idx fuel := by
  intro fuel
  induction fuel with
  | zero => intro idx _; rfl
  | succ a ih =>
    intro idx h
    rcases h with rfl | ⟨hpos, hlen⟩
    · rw [walk_neg_one, walk_neg_one]
    · have hi : idx = ((idx.toNat : Nat) : Int) := (Int.toNat_of_nonneg hpos).symm
      have hgetD : (parents ++ ext).getD idx.toNat (-1) = parents.getD idx.toNat (-1) := by
        rw [List.getD_eq_getElem _ _ (by rw [List.length_append]; omega),
          List.getD_eq_getElem _ _ hlen, List.getElem_append_left hlen]
      rw [hi, walk_cons, walk_cons, hgetD]
      congr 1
      by_cases h0 : idx.toNat = 0
      · rw [h0, hok.1, walk_neg_one, walk_neg_one]
      · obtain ⟨hnext0, hnextlt⟩ := hok.2 idx.toNat (by omega) hlen
        apply ih
        right
        exact ⟨hnext0, by omega⟩

theorem walk_spec {parents : List Int} (hok : ParentsOK parents) :
    ∀ (fuel : Nat) (i : Nat), i < parents.length → i < fuel →
      ∃ w, walk_parent_links parents (i : Int) fuel = i :: w ∧
        (i :: w).getLast? = some 0 ∧
        List.Chain'
          (fun a b => parents.getD a (-1) = (b : Int) ∧ b < a ∧ a < parents.length) (i :: w) ∧
        (i :: w).length ≤ i + 1 ∧
        (∀ x ∈ i :: w, x ≤ i) := by
  intro fuel
  induction fuel with
  | zero => intro i _ hf; omega
  | succ a ih =>
    intro i hlen hf
    rw [walk_cons]
    by_cases h0 : i = 0
    · subst h0
      rw [hok.1, walk_neg_one]
      exact ⟨[], rfl, rfl, List.chain'_singleton 0, by simp, by simp⟩
    · obtain ⟨hnext0, hnextlt⟩ := hok.2 i (by omega) hlen
      set p := parents.getD i (-1) with hpdef
      have hi : p = ((p.toNat : Nat) : Int) := (Int.toNat_of_nonneg hnext0).symm
      have hplt : p.toNat < i := by omega
      obtain ⟨w', heq, hlast, hchain, hlenle, hmem⟩ :=
        ih p.toNat (by omega) (by omega)
      rw [hi, heq]
      refine ⟨p.toNat :: w', rfl, ?_, ?_, ?_, ?_⟩
      · rw [List.getLast?_cons_cons]
        exact hlast
      · rw [List.chain'_cons]
        exact ⟨⟨by rw [← hpdef]; exact hi, hplt, hlen⟩, hchain⟩
      · have := hlenle
        simp only [List.length_cons] at this ⊢
        omega
      · intro x hx
        rcases List.mem_cons.mp hx with rfl | hxw
        · exact le_refl x
        · exact le_trans (hmem x hxw) (by omega)

/-! ### Basic injectivity of registry reads -/

theorem boards_getD_inj {boards : List (List Nat)} (hnd : boards.Nodup) {a b : Nat}
    (ha : a < boards.length) (hb : b < boards.length) (hne : a ≠ b) :
    boards.getD a [] ≠ boards.getD b [] := by
  rw [List.getD_eq_getElem _ _ ha, List.getD_eq_getElem _ _ hb]
  intro he
  exact hne ((List.Nodup.getElem_inj_iff hnd).mp he)

/-! ### The search invariant -/

/-- Invariant of the search state: the registry starts at the starting board,
holds pairwise-distinct valid boards, every non-root registry entry was
produced by one slide from its strictly earlier parent, the frontier only
references registry entries, and the parent chain of every entry is no longer
than the expansion count plus one. -/
structure SearchInv (start : List Nat) (boards : List (List Nat)) (parents : List Int)
    (frontier : List Nat) (count : Nat) : Prop where
  len_eq : parents.length = boards.length
  nonnil : 0 < boards.length
  first : boards.getD 0 [] = start
  valid_all : ∀ i : Nat, i < boards.length → ValidBoard (boards.getD i [])
  nodup : boards.Nodup
  par0 : parents.getD 0 (-1) = -1
  par_pos : ∀ i : Nat, 0 < i → i < parents.length →
    0 ≤ parents.getD i (-1) ∧ parents.getD i (-1) < (i : Int) ∧
      boards.getD i [] ∈
        generate_all_neighbor_boards (boards.getD (parents.getD i (-1)).toNat [])
  front_lt : ∀ f ∈ frontier, f < boards.length
  depth_le : ∀ i : Nat, i < boards.length →
    (walk_parent_links parents (i : Int) (i + 1)).length ≤ count + 1

theorem SearchInv.parentsOK {start boards parents frontier count}
    (inv : SearchInv start boards parents frontier count) : ParentsOK parents :=
  ⟨inv.par0, fun i h0 hl => ⟨(inv.par_pos i h0 hl).1, (inv.par_pos i h0 hl).2.1⟩⟩

theorem SearchInv.count_mono {start boards parents frontier count count'}
    (inv : SearchInv start boards parents frontier count) (h : count ≤ count') :
    SearchInv start boards parents frontier count' where
  len_eq := inv.len_eq
  nonnil := inv.nonnil
  first := inv.first
  valid_all := inv.valid_all
  nodup := inv.nodup
  par0 := inv.par0
  par_pos := inv.par_pos
  front_lt := inv.front_lt
  depth_le := fun i hi => le_trans (inv.depth_le i hi) (by omega)

theorem SearchInv.frontier_shrink {start boards parents frontier frontier' count}
    (inv : SearchInv start boards parents frontier count)
    (h : ∀ x ∈ frontier', x ∈ frontier) :
    SearchInv start boards parents frontier' count where
  len_eq := inv.len_eq
  nonnil := inv.nonnil
  first := inv.first
  valid_all := inv.valid_all
  nodup := inv.nodup
  par0 := inv.par0
  par_pos := inv.par_pos
  front_lt := fun f hf => inv.front_lt f (h f hf)
  depth_le := inv.depth_le

theorem getD_append_left {α : Type} [Inhabited α] (l₁ l₂ : List α) (i : Nat) (d : α)
    (h : i < l₁.length) : (l₁ ++ l₂).getD i d = l₁.getD i d := by
  rw [List.getD_eq_getElem _ _ (by rw [List.length_append]; omega),
    List.getD_eq_getElem _ _ h, List.getElem_append_left h]

theorem getD_append_last {α : Type} [Inhabited α] (l : List α) (x : α) (d : α) :
    (l ++ [x]).getD l.length d = x := by
  rw [List.getD_eq_getElem _ _ (by simp)]
  simp

/-- Appending one newly discovered neighbor preserves the invariant
(with the counter already advanced past the parent's chain length). -/
theorem SearchInv.append_neighbor {start boards parents frontier count bi cur n}
    (inv : SearchInv start boards parents frontier count)
    (hbi : bi < boards.length)
    (hcur : boards.getD bi [] = cur)
    (hdepth : (walk_parent_links parents (bi : Int) (bi + 1)).length ≤ count)
    (hn : n ∈ generate_all_neighbor_boards cur)
    (hnew : find_board_index boards n = -1) :
    SearchInv start (boards ++ [n]) (parents ++ [(bi : Int)]) (frontier ++ [boards.length])
      count := by
  have hok := inv.parentsOK
  have hvcur : ValidBoard cur := hcur ▸ inv.valid_all bi hbi
  have hvn : ValidBoard n := neighbor_valid hvcur hn
  have hlen16 : ∀ i : Nat, i < boards.length → (boards.getD i []).length = 16 :=
    fun i hi => (inv.valid_all i hi).len
  have hnotmem : n ∉ boards := by
    intro hmem
    obtain ⟨j, hj, hbj⟩ := List.getElem_of_mem hmem
    have := (find_board_index_neg_iff boards n).mp hnew (boards[j]) (by
      exact List.getElem_mem hj)
    rw [hbj, boards_are_equal_of_eq n] at this
    cases this
  constructor
  · simp only [List.length_append, List.length_singleton, inv.len_eq]
  · simp only [List.length_append, List.length_singleton]
    omega
  · rw [getD_append_left _ _ _ _ (by omega)]
    exact inv.first
  · intro i hi
    simp only [List.length_append, List.length_singleton] at hi
    by_cases hilt : i < boards.length
    · rw [getD_append_left _ _ _ _ hilt]
      exact inv.valid_all i hilt
    · have hieq : i = boards.length := by omega
      subst hieq
      rw [getD_append_last]
      exact hvn
  · rw [List.nodup_append]
    exact ⟨inv.nodup, List.nodup_singleton n, by
      intro x hx hx'
      rw [List.mem_singleton] at hx'
      subst hx'
      exact hnotmem hx⟩
  · rw [getD_append_left _ _ _ _ (by rw [inv.len_eq]; omega)]
    exact inv.par0
  · intro i h0 hi
    simp only [List.length_append, List.length_singleton] at hi
    by_cases hilt : i < parents.length
    · rw [getD_append_left _ _ _ _ hilt]
      obtain ⟨ha, hb, hc⟩ := inv.par_pos i h0 hilt
      refine ⟨ha, hb, ?_⟩
      rw [getD_append_left _ _ _ _ (by rw [← inv.len_eq]; omega),
        getD_append_left _ _ _ _ (by rw [← inv.len_eq]; omega)]
      exact hc
    · have hieq : i = parents.length := by omega
      subst hieq
      rw [getD_append_last]
      refine ⟨by omega, by rw [inv.len_eq]; exact_mod_cast hbi, ?_⟩
      rw [Int.toNat_natCast, inv.len_eq, getD_append_last,
        getD_append_left _ _ _ _ (by omega), hcur]
      exact hn
  · intro f hf
    simp only [List.length_append, List.length_singleton]
    rcases List.mem_append.mp hf with hf | hf
    · have := inv.front_lt f hf
      omega
    · rw [List.mem_singleton] at hf
      omega
  · intro i hi
    simp only [List.length_append, List.length_singleton] at hi
    by_cases hilt : i < boards.length
    · rw [walk_append_congr hok [(bi : Int)] (i + 1) (i : Int)
        (Or.inr ⟨by omega, by rw [Int.toNat_natCast, inv.len_eq]; omega⟩)]
      exact inv.depth_le i hilt
    · have hieq : i = boards.length := by omega
      subst hieq
      rw [← inv.len_eq, walk_cons, getD_append_last,
        walk_append_congr hok [(bi : Int)] parents.length (bi : Int)
          (Or.inr ⟨by omega, by rw [Int.toNat_natCast, inv.len_eq]; omega⟩),
        walk_fuel_congr hok parents.length (bi : Int) (bi + 1)
          (Or.inr ⟨by omega, by rw [Int.toNat_natCast]; rw [inv.len_eq]; omega,
            by rw [Int.toNat_natCast]; rw [inv.len_eq]; omega, by rw [Int.toNat_natCast]; omega⟩)]
      simp only [List.length_cons]
      omega

/-- Recording a whole batch of neighbors of the just-expanded board preserves
the invariant. -/
theorem record_inv {start : List Nat} (bi : Nat) (cur : List Nat) :
    ∀ (ns : List (List Nat)) (boards : List (List Nat)) (parents : List Int)
      (frontier : List Nat) (count : Nat),
      SearchInv start boards parents frontier count →
      bi < boards.length →
      boards.getD bi [] = cur →
      (walk_parent_links parents (bi : Int) (bi + 1)).length ≤ count →
      (∀ n ∈ ns, n ∈ generate_all_neighbor_boards cur) →
      SearchInv start (record_new_neighbors bi boards parents frontier ns).1
        (record_new_neighbors bi boards parents frontier ns).2.1
        (record_new_neighbors bi boards parents frontier ns).2.2 count := by
  intro ns
  induction ns with
  | nil =>
    intro boards parents frontier count inv _ _ _ _
    simpa [record_new_neighbors] using inv
  | cons n rest ih =>
    intro boards parents frontier count inv hbi hcur hdepth hmem
    unfold record_new_neighbors
    by_cases hnew : find_board_index boards n = -1
    · rw [if_pos hnew]
      apply ih
      · exact inv.append_neighbor hbi hcur hdepth (hmem n (List.mem_cons_self n rest)) hnew
      · simp only [List.length_append, List.length_singleton]
        omega
      · rw [getD_append_left _ _ _ _ hbi]
        exact hcur
      · rw [walk_append_congr inv.parentsOK [(bi : Int)] (bi + 1) (bi : Int)
          (Or.inr ⟨by omega, by rw [Int.toNat_natCast]; rw [inv.len_eq]; omega⟩)]
        exact hdepth
      · intro m hm
        exact hmem m (List.mem_cons_of_mem n hm)
    · rw [if_neg hnew]
      apply ih boards parents frontier count inv hbi hcur hdepth
      intro m hm
      exact hmem m (List.mem_cons_of_mem n hm)

/-- When the expanded board is the goal, the reconstructed path runs from the
start to the goal along single slides, visits pairwise distinct boards, and is
no longer than the parent chain bound. -/
theorem goal_path_spec {start : List Nat} {boards : List (List Nat)} {parents : List Int}
    {frontier : List Nat} {count bi : Nat}
    (inv : SearchInv start boards parents frontier count)
    (hbi : bi < boards.length)
    (hgoal : boards.getD bi [] = GOAL_BOARD) :
    ((walk_parent_links parents (bi : Int) parents.length).reverse.map
        fun index => boards.getD index []) ≠ [] ∧
      ((walk_parent_links parents (bi : Int) parents.length).reverse.map
          fun index => boards.getD index []).head? = some start ∧
      ((walk_parent_links parents (bi : Int) parents.length).reverse.map
          fun index => boards.getD index []).getLast? = some GOAL_BOARD ∧
      List.Chain' (fun a b => b ∈ generate_all_neighbor_boards a)
        ((walk_parent_links parents (bi : Int) parents.length).reverse.map
          fun index => boards.getD index []) ∧
      ((walk_parent_links parents (bi : Int) parents.length).reverse.map
          fun index => boards.getD index []).Nodup ∧
      ((walk_parent_links parents (bi : Int) parents.length).reverse.map
          fun index => boards.getD index []).length ≤ count + 1 := by
  have hok := inv.parentsOK
  have hbl : bi < parents.length := by rw [inv.len_eq]; exact hbi
  obtain ⟨w, heq, hlast, hchain, hlenle, hmemw⟩ := walk_spec hok parents.length bi hbl hbl
  rw [heq]
  refine ⟨by simp, ?_, ?_, ?_, ?_, ?_⟩
  · rw [List.head?_map, List.head?_reverse, hlast]
    show some (boards.getD 0 []) = some start
    rw [inv.first]
  · rw [List.getLast?_map, List.getLast?_reverse]
    show some (boards.getD bi []) = some GOAL_BOARD
    rw [hgoal]
  · rw [List.chain'_map]
    rw [List.chain'_reverse]
    apply List.Chain'.imp _ hchain
    intro a b hab
    obtain ⟨hpar, hba, halen⟩ := hab
    have ha0 : 0 < a := by omega
    obtain ⟨_, _, hmem⟩ := inv.par_pos a ha0 halen
    rw [hpar, Int.toNat_natCast] at hmem
    exact hmem
  · haveI : IsTrans Nat (fun a b => b < a ∧ a < parents.length) :=
      ⟨fun a b c hab hbc => ⟨lt_trans hbc.1 hab.1, hab.2⟩⟩
    have hS : List.Chain' (fun a b => b < a ∧ a < parents.length) (bi :: w) :=
      List.Chain'.imp (fun a b hab => ⟨hab.2.1, hab.2.2⟩) hchain
    have hpw : (bi :: w).Pairwise (fun a b => b < a ∧ a < parents.length) :=
      List.chain'_iff_pairwise.mp hS
    have hpwrev : ((bi :: w).reverse).Pairwise (fun a b => a < b ∧ b < parents.length) := by
      rw [List.pairwise_reverse]
      exact hpw.imp (fun hr => hr)
    apply List.Pairwise.map _ _ hpwrev
    intro a b hab
    exact boards_getD_inj inv.nodup (by rw [← inv.len_eq]; omega) (by rw [← inv.len_eq]; omega)
      (by omega)
  · have hfc : walk_parent_links parents (bi : Int) parents.length =
        walk_parent_links parents (bi : Int) (bi + 1) :=
      walk_fuel_congr hok parents.length (bi : Int) (bi + 1)
        (Or.inr ⟨by omega, by rw [Int.toNat_natCast]; omega,
          by rw [Int.toNat_natCast]; omega, by rw [Int.toNat_natCast]; omega⟩)
    have := inv.depth_le bi hbi
    rw [← hfc, heq] at this
    simpa using this

/-- Main loop lemma: any path returned by the loop runs from the start board to
the goal board along single slides, visits pairwise distinct boards, and is no
longer than the returned expansion count. -/
theorem gbfs_loop_some_spec (start : List Nat) :
    ∀ (fuel maxE : Nat) (boards : List (List Nat)) (parents : List Int) (frontier : List Nat)
      (count : Nat) (path : List (List Nat)) (cnt : Nat),
      SearchInv start boards parents frontier count →
      gbfs_loop maxE fuel boards parents frontier count = (some path, cnt) →
      path ≠ [] ∧ path.head? = some start ∧ path.getLast? = some GOAL_BOARD ∧
        List.Chain' (fun a b => b ∈ generate_all_neighbor_boards a) path ∧
        path.Nodup ∧ path.length ≤ cnt := by
  intro fuel
  induction fuel with
  | zero =>
    intro maxE boards parents frontier count path cnt _ hrun
    simp [gbfs_loop] at hrun
  | succ fuel ih =>
    intro maxE boards parents frontier count path cnt inv hrun
    cases frontier with
    | nil => simp [gbfs_loop] at hrun
    | cons f0 rest =>
      rw [gbfs_loop] at hrun
      by_cases hlt : count < maxE
      · rw [if_pos hlt] at hrun
        set sel := select_lowest_score boards rest 1
          (0, f0, compute_manhattan_total (boards.getD f0 [])) with hsel
        have hbisel : sel.2.1 ∈ f0 :: rest := by
          rcases select_lowest_score_mem boards rest 1
            (0, f0, compute_manhattan_total (boards.getD f0 [])) with h | h
          · rw [← hsel] at h
            rw [h]
            exact List.mem_cons_self f0 rest
          · rw [← hsel] at h
            exact List.mem_cons_of_mem f0 h
        have hbi : sel.2.1 < boards.length := inv.front_lt sel.2.1 hbisel
        by_cases hg : boards_are_equal (boards.getD sel.2.1 []) GOAL_BOARD = true
        · rw [if_pos hg] at hrun
          have hgoal : boards.getD sel.2.1 [] = GOAL_BOARD := by
            refine (boards_are_equal_iff ?_ ?_).mp hg
            · exact (inv.valid_all sel.2.1 hbi).len
            · decide
          obtain ⟨hpe, hce⟩ : (some ((walk_parent_links parents (sel.2.1 : Int)
                parents.length).reverse.map fun index => boards.getD index []) =
                  some path) ∧ count + 1 = cnt := by
            constructor
            · exact congrArg Prod.fst hrun
            · exact congrArg Prod.snd hrun
          obtain rfl : path = (walk_parent_links parents (sel.2.1 : Int)
              parents.length).reverse.map fun index => boards.getD index [] :=
            (Option.some_injective _ hpe).symm
          obtain rfl : cnt = count + 1 := hce.symm
          exact goal_path_spec inv hbi hgoal
        · rw [if_neg hg] at hrun
          apply ih maxE _ _ _ (count + 1) path cnt _ hrun
          apply record_inv sel.2.1 (boards.getD sel.2.1 [])
            (generate_all_neighbor_boards (boards.getD sel.2.1 []))
            boards parents ((f0 :: rest).eraseIdx sel.1) (count + 1)
          · refine (inv.frontier_shrink ?_).count_mono (by omega)
            intro x hx
            exact (List.eraseIdx_sublist (f0 :: rest) sel.1).subset hx
          · exact hbi
          · rfl
          · exact inv.depth_le sel.2.1 hbi
          · intro n hn
            exact hn
      · rw [if_neg hlt] at hrun
        simp at hrun

/-- If the expansion counter has reached the limit, the loop stops at once. -/
theorem gbfs_loop_stopped :
    ∀ (fuel maxE : Nat) (boards : List (List Nat)) (parents : List Int) (frontier : List Nat)
      (count : Nat), ¬ count < maxE →
      gbfs_loop maxE fuel boards parents frontier count = (none, count) := by
  intro fuel maxE boards parents frontier count h
  cases fuel with
  | zero => rfl
  | succ a =>
    cases frontier with
    | nil => rfl
    | cons f0 rest =>
      rw [gbfs_loop]
      rw [if_neg h]

/-- The expansion count returned by the loop never exceeds the limit. -/
theorem gbfs_loop_count_le :
    ∀ (fuel maxE : Nat) (boards : List (List Nat)) (parents : List Int) (frontier : List Nat)
      (count : Nat), count ≤ maxE →
      (gbfs_loop maxE fuel boards parents frontier count).2 ≤ maxE := by
  intro fuel
  induction fuel with
  | zero =>
    intro maxE boards parents frontier count h
    simpa [gbfs_loop] using h
  | succ fuel ih =>
    intro maxE boards parents frontier count h
    cases frontier with
    | nil => simpa [gbfs_loop] using h
    | cons f0 rest =>
      by_cases hlt : count < maxE
      · rw [gbfs_loop, if_pos hlt]
        dsimp only
        split
        · exact (by omega : count + 1 ≤ maxE)
        · exact ih maxE _ _ _ (count + 1) (by omega)
      · rw [gbfs_loop_stopped (fuel + 1) maxE boards parents (f0 :: rest) count hlt]
        exact h

/-- Any fuel at least `maxE - count` gives the same result: the loop performs
at most `maxE - count` further iterations. -/
theorem gbfs_loop_fuel_congr :
    ∀ (f1 f2 maxE : Nat) (boards : List (List Nat)) (parents : List Int) (frontier : List Nat)
      (count : Nat), maxE ≤ count + f1 → maxE ≤ count + f2 →
      gbfs_loop maxE f1 boards parents frontier count =
        gbfs_loop maxE f2 boards parents frontier count := by
  intro f1
  induction f1 with
  | zero =>
    intro f2 maxE boards parents frontier count h1 h2
    rw [gbfs_loop_stopped 0 maxE boards parents frontier count (by omega),
      gbfs_loop_stopped f2 maxE boards parents frontier count (by omega)]
  | succ a ih =>
    intro f2 maxE boards parents frontier count h1 h2
    by_cases hlt : count < maxE
    · obtain ⟨b, rfl⟩ : ∃ b, f2 = b + 1 := ⟨f2 - 1, by omega⟩
      cases frontier with
      | nil => rw [gbfs_loop, gbfs_loop]
      | cons f0 rest =>
        rw [gbfs_loop, gbfs_loop, if_pos hlt, if_pos hlt]
        dsimp only
        split
        · rfl
        · exact ih b maxE _ _ _ (count + 1) (by omega) (by omega)
    · rw [gbfs_loop_stopped (a + 1) maxE boards parents frontier count hlt,
        gbfs_loop_stopped f2 maxE boards parents frontier count hlt]

/-- The invariant holds at the initial search state. -/
theorem initial_inv {start : List Nat} (hv : ValidBoard start) :
    SearchInv start [start] [-1] [0] 0 := by
  constructor
  · rfl
  · simp
  · rfl
  · intro i hi
    simp at hi
    subst hi
    exact hv
  · exact List.nodup_singleton start
  · rfl
  · intro i h0 hi
    simp at hi
    omega
  · intro f hf
    simp at hf
    subst hf
    simp
  · intro i hi
    simp at hi
    subst hi
    rw [show ((0 : Nat) : Int) = (0 : Int) by rfl]
    rw [show walk_parent_links [-1] (0 : Int) 1 = [0] from rfl]
    simp

/-! ### Claims -/

/-- Claim C1: for every valid start board and expansion limit, if the search
returns a path rather than none, the path is a finite non-empty sequence whose
first element is the start board, whose last element is the Goal Board, and in
which every consecutive pair of boards is one legal slide apart (the later
board is a neighbor of the earlier one). -/
theorem claim_C1_path_shape (start : List Nat) (maxE : Nat) (hv : ValidBoard start)
    (path : List (List Nat)) (cnt : Nat)
    (hrun : greedy_best_first_search start maxE = (some path, cnt)) :
    path ≠ [] ∧ path.head? = some start ∧ path.getLast? = some GOAL_BOARD ∧
      List.Chain' (fun a b => b ∈ generate_all_neighbor_boards a) path := by
  unfold greedy_best_first_search at hrun
  obtain ⟨h1, h2, h3, h4, _, _⟩ :=
    gbfs_loop_some_spec start maxE maxE [start] [-1] [0] 0 path cnt (initial_inv hv) hrun
  exact ⟨h1, h2, h3, h4⟩

theorem claim_C1_witness :
    ValidBoard GOAL_BOARD ∧
      (([GOAL_BOARD] : List (List Nat)) ≠ [] ∧
        ([GOAL_BOARD] : List (List Nat)).head? = some GOAL_BOARD ∧
        ([GOAL_BOARD] : List (List Nat)).getLast? = some GOAL_BOARD ∧
        List.Chain' (fun a b => b ∈ generate_all_neighbor_boards a)
          ([GOAL_BOARD] : List (List Nat))) :=
  ⟨valid_goal_board, claim_C1_path_shape GOAL_BOARD 100000 valid_goal_board [GOAL_BOARD] 1 rfl⟩

/-- Claim C2: for every valid board, the Manhattan total is nonnegative and is
zero exactly when the board is the Goal Board. -/
theorem claim_C2_manhattan (board : List Nat) (hv : ValidBoard board) :
    0 ≤ compute_manhattan_total board ∧
      (compute_manhattan_total board = 0 ↔ board = GOAL_BOARD) :=
  ⟨manhattan_nonneg board, manhattan_zero_iff hv⟩

theorem claim_C2_witness :
    ValidBoard GOAL_BOARD ∧
      (0 ≤ compute_manhattan_total GOAL_BOARD ∧
        (compute_manhattan_total GOAL_BOARD = 0 ↔ GOAL_BOARD = GOAL_BOARD)) :=
  ⟨valid_goal_board, claim_C2_manhattan GOAL_BOARD valid_goal_board⟩

/-- Claim C3 counterexample: on the start board one row away from being solved,
the search does NOT return the two-element path with expansion count 1 asserted
by the claim (the board is two slides from the goal, not one). -/
theorem claim_C3_counterexample :
    greedy_best_first_search [1, 2, 3, 4, 5, 6, 7, 8, 9, 10, 11, 12, 13, 0, 14, 15] ≠
      (some [[1, 2, 3, 4, 5, 6, 7, 8, 9, 10, 11, 12, 13, 0, 14, 15], GOAL_BOARD], 1) := by
  decide

/-- Claim C3 amended: on start board [1,...,13,0,14,15] with the default
expansion limit, the search returns the three-board path through
[1,...,13,14,0,15] to the Goal Board, with expansion count 3. -/
theorem claim_C3_amended :
    greedy_best_first_search [1, 2, 3, 4, 5, 6, 7, 8, 9, 10, 11, 12, 13, 0, 14, 15] =
      (some [[1, 2, 3, 4, 5, 6, 7, 8, 9, 10, 11, 12, 13, 0, 14, 15],
             [1, 2, 3, 4, 5, 6, 7, 8, 9, 10, 11, 12, 13, 14, 0, 15],
             [1, 2, 3, 4, 5, 6, 7, 8, 9, 10, 11, 12, 13, 14, 15, 0]], 3) := by
  rfl

/-- Claim C4: the search always terminates — any fuel of at least the expansion
limit yields the very same result, so the loop performs at most
`expansionLimit` iterations — and the returned expansion count never exceeds
the configured limit. -/
theorem claim_C4_terminates_within_limit (start : List Nat) (maxE : Nat) :
    (greedy_best_first_search start maxE).2 ≤ maxE ∧
      ∀ fuel : Nat, maxE ≤ fuel →
        gbfs_loop maxE fuel [start] [-1] [0] 0 = greedy_best_first_search start maxE := by
  constructor
  · exact gbfs_loop_count_le maxE maxE [start] [-1] [0] 0 (by omega)
  · intro fuel hf
    unfold greedy_best_first_search
    exact gbfs_loop_fuel_congr fuel maxE maxE [start] [-1] [0] 0 (by omega) (by omega)

theorem claim_C4_witness :
    (greedy_best_first_search GOAL_BOARD 5).2 ≤ 5 ∧
      gbfs_loop 5 7 [GOAL_BOARD] [-1] [0] 0 = greedy_best_first_search GOAL_BOARD 5 :=
  ⟨(claim_C4_terminates_within_limit GOAL_BOARD 5).1,
    (claim_C4_terminates_within_limit GOAL_BOARD 5).2 7 (by decide)⟩

/-- Claim C5: with expansion limit 0, the search returns no path and an
expansion count of 0 for every start board — in particular also when the start
board already equals the Goal Board, since the goal test only happens after an
expansion is counted. -/
theorem claim_C5_zero_limit (start : List Nat) :
    greedy_best_first_search start 0 = (none, 0) := rfl

/-- Claim C6: for every valid board the neighbor generator returns between 1
and 4 boards, in fact never fewer than 2, the minimum of 2 occurring when the
blank is at a corner. -/
theorem claim_C6_neighbor_count (board : List Nat) (hv : ValidBoard board) :
    1 ≤ (generate_all_neighbor_boards board).length ∧
      2 ≤ (generate_all_neighbor_boards board).length ∧
      (generate_all_neighbor_boards board).length ≤ 4 ∧
      ((board.indexOf 0 = 0 ∨ board.indexOf 0 = 3 ∨ board.indexOf 0 = 12 ∨
          board.indexOf 0 = 15) →
        (generate_all_neighbor_boards board).length = 2) := by
  have he := valid_indexOf_lt hv
  have h2 := shifts_length (board.indexOf 0) he
  have hcorner : ∀ e : Nat, e < 16 → (e = 0 ∨ e = 3 ∨ e = 12 ∨ e = 15) →
      (possible_shifts_for (e / 4) (e % 4)).length = 2 := by decide
  rw [neighbors_length_eq]
  exact ⟨by omega, h2.1, h2.2, fun hc => hcorner (board.indexOf 0) he hc⟩

theorem claim_C6_witness :
    ValidBoard GOAL_BOARD ∧
      (1 ≤ (generate_all_neighbor_boards GOAL_BOARD).length ∧
        2 ≤ (generate_all_neighbor_boards GOAL_BOARD).length ∧
        (generate_all_neighbor_boards GOAL_BOARD).length ≤ 4 ∧
        ((GOAL_BOARD.indexOf 0 = 0 ∨ GOAL_BOARD.indexOf 0 = 3 ∨ GOAL_BOARD.indexOf 0 = 12 ∨
            GOAL_BOARD.indexOf 0 = 15) →
          (generate_all_neighbor_boards GOAL_BOARD).length = 2)) :=
  ⟨valid_goal_board, claim_C6_neighbor_count GOAL_BOARD valid_goal_board⟩

/-- Claim C7: every board produced by the neighbor generator from a valid board
is itself a valid board (a length-16 permutation of 0..15): one slide preserves
the board invariant. -/
theorem claim_C7_neighbors_valid (board n : List Nat) (hv : ValidBoard board)
    (hn : n ∈ generate_all_neighbor_boards board) : ValidBoard n :=
  neighbor_valid hv hn

theorem claim_C7_witness :
    ValidBoard GOAL_BOARD ∧
      [1, 2, 3, 4, 5, 6, 7, 8, 9, 10, 11, 12, 13, 14, 0, 15] ∈
        generate_all_neighbor_boards GOAL_BOARD ∧
      ValidBoard [1, 2, 3, 4, 5, 6, 7, 8, 9, 10, 11, 12, 13, 14, 0, 15] :=
  ⟨valid_goal_board, by decide,
    claim_C7_neighbors_valid GOAL_BOARD _ valid_goal_board (by decide)⟩

/-- Claim C8: for every valid board, applying the inverse slide to any of its
neighbors returns the original board: the board is itself a neighbor of each of
its neighbors. -/
theorem claim_C8_inverse_slide (board n : List Nat) (hv : ValidBoard board)
    (hn : n ∈ generate_all_neighbor_boards board) :
    board ∈ generate_all_neighbor_boards n :=
  neighbor_symm hv hn

theorem claim_C8_witness :
    ValidBoard GOAL_BOARD ∧
      [1, 2, 3, 4, 5, 6, 7, 8, 9, 10, 11, 12, 13, 14, 0, 15] ∈
        generate_all_neighbor_boards GOAL_BOARD ∧
      GOAL_BOARD ∈
        generate_all_neighbor_boards [1, 2, 3, 4, 5, 6, 7, 8, 9, 10, 11, 12, 13, 14, 0, 15] :=
  ⟨valid_goal_board, by decide,
    claim_C8_inverse_slide GOAL_BOARD _ valid_goal_board (by decide)⟩

/-- Claim C9: whenever the search on a valid start board returns a path, the
boards on that path are pairwise distinct. -/
theorem claim_C9_path_nodup (start : List Nat) (maxE : Nat) (hv : ValidBoard start)
    (path : List (List Nat)) (cnt : Nat)
    (hrun : greedy_best_first_search start maxE = (some path, cnt)) :
    path.Nodup := by
  unfold greedy_best_first_search at hrun
  exact (gbfs_loop_some_spec start maxE maxE [start] [-1] [0] 0 path cnt
    (initial_inv hv) hrun).2.2.2.2.1

theorem claim_C9_witness : ([GOAL_BOARD] : List (List Nat)).Nodup :=
  claim_C9_path_nodup GOAL_BOARD 100000 valid_goal_board [GOAL_BOARD] 1 rfl

/-- Claim C10: whenever the search on a valid start board returns a path, the
path is no longer than the returned expansion count. -/
theorem claim_C10_path_le_count (start : List Nat) (maxE : Nat) (hv : ValidBoard start)
    (path : List (List Nat)) (cnt : Nat)
    (hrun : greedy_best_first_search start maxE = (some path, cnt)) :
    path.length ≤ cnt := by
  unfold greedy_best_first_search at hrun
  exact (gbfs_loop_some_spec start maxE maxE [start] [-1] [0] 0 path cnt
    (initial_inv hv) hrun).2.2.2.2.2

theorem claim_C10_witness : ([GOAL_BOARD] : List (List Nat)).length ≤ 1 :=
  claim_C10_path_le_count GOAL_BOARD 100000 valid_goal_board [GOAL_BOARD] 1 rfl
